import Mathlib

/-!
Verification of the `sealer` streaming encryption container (Go package
`github.com/andreyvit/sealer`) against its natural-language specification.

Shallow embedding conventions:
* Bytes are `Nat` values in `[0, 256)`; byte strings are `List Nat`.
* The external AEAD primitives (ChaCha20-Poly1305 and XChaCha20-Poly1305)
  are parameters: a keyed instance is an `AEAD` structure (matching Go's
  `cipher.AEAD` created by `chacha20poly1305.New`), and the extended-nonce
  family is an `XAEAD` structure taking the key explicitly (matching
  `chacha20poly1305.NewX`).  Theorems that need AEAD correctness state the
  standard contract as hypotheses; witnesses instantiate a concrete toy
  AEAD (`mkAEAD` / `mkXAEAD`).
* Go `io.Writer` sinks never fail in the model (the in-memory
  `bytes.Buffer` used by the repository's own tests); the encryptor emits
  a list of `Chunk` records whose `Chunk.wire` serialisation is exactly
  the bytes the Go code writes per flush.
* Go's `chunkIndex uint32` counters are modelled as `Nat`; every place the
  Go code consumes them as `uint32` (4-byte little-endian encodings,
  `uint32` comparisons) applies `% 2^32` explicitly.
-/

set_option maxRecDepth 10000

namespace Sealer

/-! ### Byte-level primitives (`encoding/binary`, little-endian) -/

/-- `binary.LittleEndian.PutUint32` / `AppendUint32`: the 4-byte
little-endian encoding of `n` (as a `uint32`, i.e. of `n % 2^32`). -/
def putUint32LE (n : Nat) : List Nat :=
  [n % 256, n / 256 % 256, n / 65536 % 256, n / 16777216 % 256]

/-- `binary.LittleEndian.Uint32`: read a 4-byte little-endian integer from
the front of a byte string. -/
def readUint32LE (bs : List Nat) : Nat :=
  bs.getD 0 0 + bs.getD 1 0 * 256 + bs.getD 2 0 * 65536 + bs.getD 3 0 * 16777216

theorem length_putUint32LE (n : Nat) : (putUint32LE n).length = 4 := rfl

theorem readUint32LE_putUint32LE_append (n : Nat) (rest : List Nat) :
    readUint32LE (putUint32LE n ++ rest) = n % 2 ^ 32 := by
  simp only [putUint32LE, readUint32LE, List.cons_append, List.nil_append, List.getD]
  simp only [List.get?_cons_zero, List.get?_cons_succ, Option.getD_some]
  omega

theorem readUint32LE_putUint32LE (n : Nat) :
    readUint32LE (putUint32LE n) = n % 2 ^ 32 := by
  have h := readUint32LE_putUint32LE_append n []
  simpa using h

/-! ### Constants (`sealer.go`) -/

def KeySize : Nat := 32
def IDSize : Nat := 32
def nonceSizeS : Nat := 12
def nonceSizeX : Nat := 24
def overhead : Nat := 16

/-- `DefaultChunkSize = 32 * 1024`. -/
def DefaultChunkSize : Nat := 32 * 1024

/-- `MaxChunkSize = 1024 * 1024`. -/
def MaxChunkSize : Nat := 1024 * 1024

/-- `headerSize = 8 + IDSize + nonceSizeX + KeySize + overhead` (= 112). -/
def headerSize : Nat := 8 + IDSize + nonceSizeX + KeySize + overhead

def offVersion : Nat := 0
def offChunkSize : Nat := offVersion + 4
def offKeyID : Nat := offChunkSize + 4
def offEncKey : Nat := offKeyID + IDSize

def chunkHeaderSize : Nat := 4

/-- `finalChunkIndex = 0xffff_ffff`. -/
def finalChunkIndex : Nat := 4294967295

/-- `fillNonce` (`sealer.go`): a 12-byte nonce, bytes 0-3 the little-endian
chunk index, bytes 4-10 zero, byte 11 one exactly for the final chunk. -/
def fillNonce (i : Nat) (isFinal : Bool) : List Nat :=
  putUint32LE i ++ List.replicate 7 0 ++ [if isFinal then 1 else 0]

theorem length_fillNonce (i : Nat) (isFinal : Bool) :
    (fillNonce i isFinal).length = nonceSizeS := by
  simp [fillNonce, putUint32LE, nonceSizeS]

/-! ### External AEAD primitives (consumed, not implemented)

The Go code creates keyed instances via `chacha20poly1305.New(key)`
(96-bit nonces, for chunks) and calls `chacha20poly1305.NewX(key)` inside
`encapsulate`/`decapsulate`.  We model a keyed instance as a pair of
functions `seal nonce plaintext aad` / `opn nonce ciphertext aad`, and the
extended-nonce primitive as the same with an explicit key argument. -/

structure AEAD where
  Seal : List Nat → List Nat → List Nat → List Nat
  Opn : List Nat → List Nat → List Nat → Option (List Nat)

structure XAEAD where
  Seal : List Nat → List Nat → List Nat → List Nat → List Nat
  Opn : List Nat → List Nat → List Nat → List Nat → Option (List Nat)

/-- Toy MAC tag used only to instantiate the external AEAD contract in
witnesses and counterexamples: 16 equal bytes derived from key, nonce and
associated data. -/
def mockTag (key nonce aad : List Nat) : List Nat :=
  List.replicate 16 ((key.sum + nonce.sum + aad.sum) % 256)

/-- Toy keyed AEAD instance for witnesses: ciphertext = plaintext ‖ tag. -/
def mkAEAD (key : List Nat) : AEAD where
  Seal := fun nonce pt aad => pt ++ mockTag key nonce aad
  Opn := fun nonce ct aad =>
    if 16 ≤ ct.length ∧ ct.drop (ct.length - 16) = mockTag key nonce aad then
      some (ct.take (ct.length - 16))
    else none

/-- Toy extended-nonce AEAD family for witnesses. -/
def mkXAEAD : XAEAD where
  Seal := fun key nonce pt aad => pt ++ mockTag key nonce aad
  Opn := fun key nonce ct aad =>
    if 16 ≤ ct.length ∧ ct.drop (ct.length - 16) = mockTag key nonce aad then
      some (ct.take (ct.length - 16))
    else none

/-! ### Key encapsulation (`seal.go` `encapsulate`, part_000 `decapsulate`) -/

/-- `encapsulate(key, encapsulated)` (`seal.go`): in-place
`ea.Seal(encapsulated[24:24], encapsulated[:24], encapsulated[24:56], nil)`.
The 56 random input bytes `rnd` are the 24-byte wrap nonce followed by the
32-byte ephemeral key; the result is nonce ‖ sealed(ephemeral key). -/
def encapsulate (X : XAEAD) (key rnd : List Nat) : List Nat :=
  rnd.take nonceSizeX ++ X.Seal key (rnd.take nonceSizeX) ((rnd.drop nonceSizeX).take KeySize) []

/-- `decapsulate(output, key, encapsulated)` (part_000):
`ea.Open(output[:0], encapsulated[:24], encapsulated[24:72], nil)`. -/
def decapsulate (X : XAEAD) (key encap : List Nat) : Option (List Nat) :=
  X.Opn key (encap.take nonceSizeX) ((encap.drop nonceSizeX).take (KeySize + overhead)) []

/-! ### Encryptor (`seal.go`) -/

/-- One chunk emitted by the encryptor.  `prefixArg` records the pending
prefix slice at flush time (Go `e.prefix`, `none` once cleared): it is both
written to the sink before the frame and passed as the AAD of the seal.
`index` is the running chunk counter (Go `e.chunkIndex`, a `uint32`; here
the unbounded count — every wire use encodes it mod `2^32`), `headerIndex`
the `uint32` value written in the 4-byte frame header. -/
structure Chunk where
  prefixArg : Option (List Nat)
  headerIndex : Nat
  index : Nat
  isFinal : Bool
  plaintext : List Nat
  deriving DecidableEq, Repr

/-- The encryptor state (`seal.go` `encryptor`).  The Go field `prefix`
(the not-yet-written pending prefix, nil-able) is named `pending` here;
`out`, `outputBuf` and the `aead` instance are externalised (the sink
output is the returned `Chunk` list, the AEAD is a parameter). -/
structure Encryptor where
  chunkSize : Nat
  pending : Option (List Nat)
  buf : List Nat
  chunkIndex : Nat
  deriving DecidableEq, Repr

/-- `encryptor.flush(buf, isFinal)` (`seal.go`): emit the pending prefix
(if any), compute `headerIndex` (the sentinel for a final chunk), the
nonce from the true index, seal `buf` with the pending prefix as AAD,
clear the pending prefix and advance the index.  The bytes written to the
sink are `Chunk.wire` of the returned chunk. -/
def flush (e : Encryptor) (buf : List Nat) (isFinal : Bool) : Encryptor × Chunk :=
  ({ e with pending := none, chunkIndex := e.chunkIndex + 1 },
   { prefixArg := e.pending,
     headerIndex := if isFinal then finalChunkIndex else e.chunkIndex % 2 ^ 32,
     index := e.chunkIndex,
     isFinal := isFinal,
     plaintext := buf })

/-- The bytes `flush` writes to the sink for a chunk: the pending prefix
(when still present), then the 4-byte little-endian header index, then
`aead.Seal(nonce, plaintext, aad)`. -/
def Chunk.wire (A : AEAD) (c : Chunk) : List Nat :=
  c.prefixArg.getD [] ++ putUint32LE c.headerIndex
    ++ A.Seal (fillNonce c.index c.isFinal) c.plaintext (c.prefixArg.getD [])

/-- Concatenated sink output for a list of chunks. -/
def stream (A : AEAD) (cs : List Chunk) : List Nat :=
  (cs.map (Chunk.wire A)).flatten

/-- The flush loop inside `encryptor.Write` (`seal.go`), with an explicit
structural-recursion bound: each iteration drops `chunkSize ≥ 1` bytes, so
`buf.length` iterations always suffice (`writeLoop` below instantiates the
bound; `writeLoopF_congr` shows any sufficient bound gives the same
result).  While the working buffer holds more than `chunkSize` bytes
(Go: `start+cs < n`), emit a full non-final chunk of exactly `chunkSize`
bytes; finally store the remainder in `e.buf`.  (With `chunkSize = 0` and
a non-empty buffer the Go loop would not terminate; that state is
unreachable because `Seal` rewrites a zero chunk size, and the model
returns without flushing there.) -/
def writeLoopF : Nat → Encryptor → List Nat → Encryptor × List Chunk
  | 0, e, buf => ({ e with buf := buf }, [])
  | fuel + 1, e, buf =>
    if 0 < e.chunkSize ∧ e.chunkSize < buf.length then
      let p := flush e (buf.take e.chunkSize) false
      let q := writeLoopF fuel p.1 (buf.drop e.chunkSize)
      (q.1, p.2 :: q.2)
    else
      ({ e with buf := buf }, [])

/-- The flush loop of `encryptor.Write`, at its natural bound. -/
def writeLoop (e : Encryptor) (buf : List Nat) : Encryptor × List Chunk :=
  writeLoopF buf.length e buf

theorem writeLoopF_congr : ∀ (fuel fuel' : Nat) (e : Encryptor) (buf : List Nat),
    buf.length ≤ fuel → buf.length ≤ fuel' →
    writeLoopF fuel e buf = writeLoopF fuel' e buf := by
  intro fuel
  induction fuel with
  | zero =>
    intro fuel' e buf h h'
    have hbuf : buf = [] := List.length_eq_zero.1 (Nat.le_zero.1 h)
    subst hbuf
    cases fuel' <;> simp [writeLoopF]
  | succ fuel ih =>
    intro fuel' e buf h h'
    cases fuel' with
    | zero =>
      have hbuf : buf = [] := List.length_eq_zero.1 (Nat.le_zero.1 h')
      subst hbuf
      simp [writeLoopF]
    | succ fuel' =>
      simp only [writeLoopF]
      by_cases hc : 0 < e.chunkSize ∧ e.chunkSize < buf.length
      · simp only [if_pos hc]
        rw [ih fuel' (flush e (buf.take e.chunkSize) false).1 (buf.drop e.chunkSize)
          (by simp only [List.length_drop]; omega)
          (by simp only [List.length_drop]; omega)]
      · simp only [if_neg hc]

/-- `encryptor.Write(data)` (`seal.go`): empty writes return immediately;
otherwise append to the in-progress buffer and run the flush loop.  (The
Go method also returns `(len(data), nil)`: the count always equals the
input length and the only error source is the sink, which the model makes
infallible.) -/
def encWrite (e : Encryptor) (data : List Nat) : Encryptor × List Chunk :=
  if data = [] then (e, [])
  else writeLoop e (e.buf ++ data)

/-- `encryptor.Close()` (`seal.go`): flush whatever remains in the
in-progress buffer as the single final chunk.  (Note: it does not clear
`e.buf` and sets no closed flag.) -/
def encClose (e : Encryptor) : Encryptor × Chunk :=
  flush e e.buf true

/-- Feed a sequence of write calls to the encryptor in order,
accumulating the emitted chunks. -/
def encWrites (e : Encryptor) : List (List Nat) → Encryptor × List Chunk
  | [] => (e, [])
  | w :: ws =>
    ((encWrites (encWrite e w).1 ws).1,
     (encWrite e w).2 ++ (encWrites (encWrite e w).1 ws).2)

/-- A whole encryptor run: all writes, then `Close`. -/
def encCloseRun (e : Encryptor) (ws : List (List Nat)) : Encryptor × List Chunk :=
  ((encClose (encWrites e ws).1).1, (encWrites e ws).2 ++ [(encClose (encWrites e ws).1).2])

/-! ### Seal (`seal.go` `Seal`) -/

/-- The chunk-size normalisation at the top of `Seal`: only a zero value
is rewritten, to `DefaultChunkSize`; no upper bound is checked. -/
def sealNormalize (cs : Nat) : Nat :=
  if cs = 0 then DefaultChunkSize else cs

/-- `Seal(out, key, outerPrefix, opt)` (`seal.go`), modelled up to the
encryptor it constructs.  `rnd` stands for the 24 + 32 bytes drawn from
the random source (wrap nonce ‖ ephemeral key); the chunk AEAD instance
(`chacha20poly1305.New(ephemeral key)`) is passed separately wherever the
encryptor runs.  The pending prefix is built exactly as the code does:
`outerPrefix ‖ LE32(chunkSize) ‖ key.ID ‖ encapsulated` — the code appends
no version field. -/
def sealInit (X : XAEAD) (userKey keyID outer : List Nat) (optChunkSize : Nat)
    (rnd : List Nat) : Encryptor :=
  let cs := sealNormalize optChunkSize
  let encapsulated := encapsulate X userKey rnd
  { chunkSize := cs,
    pending := some (outer ++ putUint32LE cs ++ keyID ++ encapsulated),
    buf := [],
    chunkIndex := 0 }

/-! ### Errors (`sealer.go` error values, Go `io`/`fmt` errors) -/

/-- Domain-level error kinds surfaced by the open side.
`truncated` is Go's `io.ErrUnexpectedEOF` (including a short header read
in `Prepare`), `corrupted` the `"data corruption: wanted chunk %d, got
%d"` error, `authFailed` an AEAD open failure, `endOfStream` `io.EOF`. -/
inductive SealError where
  | unsupportedVersion
  | chunkSizeTooLarge
  | truncated
  | corrupted
  | authFailed
  | endOfStream
  deriving DecidableEq, Repr

/-! ### Prepare and Openable (part_000) -/

/-- `Openable` (part_000).  `prefixBytes` models the Go field `prefix`
(the composite outer prefix ‖ header used as chunk-0 AAD), `rest` the
remaining input of the reader `in` after the header was consumed. -/
structure Openable where
  KeyID : List Nat
  rest : List Nat
  prefixBytes : List Nat
  chunkSize : Nat
  encapsulated : List Nat
  deriving DecidableEq, Repr

/-- `Prepare(in, outerPrefix)` (part_000): read exactly `headerSize`
bytes, parse version and chunk size (both little-endian `uint32`), check
the version first, then the chunk-size bounds, and return the `Openable`
carrying the key ID, the composite prefix and the encapsulated key. -/
def Prepare (input outer : List Nat) : Except SealError Openable :=
  if input.length < headerSize then .error .truncated
  else
    let header := input.take headerSize
    let version := readUint32LE (header.drop offVersion)
    let chunkSize := readUint32LE (header.drop offChunkSize)
    if version ≠ 0 then .error .unsupportedVersion
    else if chunkSize = 0 ∨ MaxChunkSize < chunkSize then .error .chunkSizeTooLarge
    else .ok
      { KeyID := (header.drop offKeyID).take IDSize,
        rest := input.drop headerSize,
        prefixBytes := outer ++ header,
        chunkSize := chunkSize,
        encapsulated := (header.drop offEncKey).take (nonceSizeX + KeySize + overhead) }

deriving instance DecidableEq for Except

/-! ### Decryptor (part_000) -/

/-- The decryptor state (part_000 `decryptor`).  `input` models the
remaining bytes of the reader `in`, `buf` the current decoded slice;
`readBuf`/`decBuf` are staging buffers with no abstract state, and the
`aead` instance is a parameter of the operations. -/
structure Decryptor where
  chunkSize : Nat
  input : List Nat
  buf : List Nat
  chunkIndex : Nat
  eof : Bool
  deriving DecidableEq, Repr

/-- `decryptor.read(prefix)` (part_000): pull up to
`chunkHeaderSize + chunkSize + overhead` bytes (a short read at EOF is
tolerated), require at least `chunkHeaderSize + overhead` of them, parse
the header index (sentinel ⇒ final, otherwise it must equal the expected
index), derive the nonce from the true index, advance the index, and
AEAD-open the remainder with the supplied AAD.  Returns the mutated state
(Go mutates the receiver even on the error paths: the frame bytes are
consumed, and on an auth failure the index has already advanced) together
with `none` on success or the error raised. -/
def decPull (A : AEAD) (d : Decryptor) (aad : List Nat) : Decryptor × Option SealError :=
  if d.eof then (d, some .endOfStream)
  else
    let frame := d.input.take (chunkHeaderSize + d.chunkSize + overhead)
    let d1 := { d with input := d.input.drop (chunkHeaderSize + d.chunkSize + overhead) }
    if frame.length < chunkHeaderSize + overhead then (d1, some .truncated)
    else
      let headerIndex := readUint32LE (frame.take chunkHeaderSize)
      let isFinal := headerIndex = finalChunkIndex
      if ¬isFinal ∧ headerIndex ≠ d.chunkIndex % 2 ^ 32 then (d1, some .corrupted)
      else
        let nonce := fillNonce d.chunkIndex isFinal
        let d2 := { d1 with chunkIndex := d.chunkIndex + 1 }
        match A.Opn nonce (frame.drop chunkHeaderSize) aad with
        | none => (d2, some .authFailed)
        | some pt => ({ d2 with buf := pt, eof := isFinal }, none)

/-- `decryptor.Read(p)` (part_000): refill the decoded slice via
`read(nil)` when it is empty, then hand out up to `pLen` bytes from it.
Returns the new state, the bytes copied, and the error if any. -/
def decRead (A : AEAD) (d : Decryptor) (pLen : Nat) : Decryptor × List Nat × Option SealError :=
  if d.buf = [] then
    match decPull A d [] with
    | (d', some e) => (d', [], some e)
    | (d', none) => ({ d' with buf := d'.buf.drop pLen }, d'.buf.take pLen, none)
  else
    ({ d with buf := d.buf.drop pLen }, d.buf.take pLen, none)

/-! ### Behavioural lemmas for the encryptor -/

theorem writeLoop_unfold (e : Encryptor) (buf : List Nat) :
    writeLoop e buf =
      if 0 < e.chunkSize ∧ e.chunkSize < buf.length then
        ((writeLoop (flush e (buf.take e.chunkSize) false).1 (buf.drop e.chunkSize)).1,
         (flush e (buf.take e.chunkSize) false).2 ::
           (writeLoop (flush e (buf.take e.chunkSize) false).1 (buf.drop e.chunkSize)).2)
      else ({ e with buf := buf }, []) := by
  have h1 : writeLoop e buf = writeLoopF (buf.length + 1) e buf :=
    writeLoopF_congr _ _ e buf le_rfl (Nat.le_succ _)
  rw [h1]
  simp only [writeLoopF]
  by_cases hc : 0 < e.chunkSize ∧ e.chunkSize < buf.length
  · simp only [if_pos hc]
    rw [writeLoopF_congr buf.length (buf.drop e.chunkSize).length _ _
      (by simp only [List.length_drop]; omega) le_rfl]
    rfl
  · simp only [if_neg hc]

/-- Full behavioural specification of the `encryptor.Write` flush loop. -/
theorem writeLoop_spec : ∀ (n : Nat) (buf : List Nat), buf.length ≤ n →
    ∀ (e : Encryptor), 0 < e.chunkSize →
    (writeLoop e buf).1.chunkSize = e.chunkSize ∧
    (writeLoop e buf).1.chunkIndex = e.chunkIndex + (writeLoop e buf).2.length ∧
    (writeLoop e buf).2.length * e.chunkSize + (writeLoop e buf).1.buf.length = buf.length ∧
    (writeLoop e buf).1.buf.length ≤ e.chunkSize ∧
    ((writeLoop e buf).1.buf = [] ↔ buf = []) ∧
    (∀ c ∈ (writeLoop e buf).2, c.isFinal = false ∧ c.plaintext.length = e.chunkSize) ∧
    ((writeLoop e buf).2.map Chunk.index = List.range' e.chunkIndex (writeLoop e buf).2.length) ∧
    ((writeLoop e buf).2 = [] → (writeLoop e buf).1.pending = e.pending ∧ (writeLoop e buf).1.buf = buf) ∧
    (∀ c cs', (writeLoop e buf).2 = c :: cs' → c.prefixArg = e.pending ∧ (writeLoop e buf).1.pending = none) := by
  intro n
  induction n with
  | zero =>
    intro buf hle e hcs
    have hbuf : buf = [] := List.length_eq_zero.1 (Nat.le_zero.1 hle)
    subst hbuf
    rw [writeLoop_unfold]
    simp
  | succ n ih =>
    intro buf hle e hcs
    rw [writeLoop_unfold]
    by_cases h : 0 < e.chunkSize ∧ e.chunkSize < buf.length
    · simp only [if_pos h]
      have hlen : (buf.drop e.chunkSize).length ≤ n := by
        simp only [List.length_drop]; omega
      have hcs1 : 0 < (flush e (buf.take e.chunkSize) false).1.chunkSize := by
        simpa [flush] using hcs
      obtain ⟨ih1, ih2, ih3, ih4, ih5, ih6, ih7, ih8, ih9⟩ :=
        ih (buf.drop e.chunkSize) hlen (flush e (buf.take e.chunkSize) false).1 hcs1
      simp only [flush] at ih1 ih2 ih3 ih4 ih5 ih6 ih7 ih8 ih9 ⊢
      refine ⟨ih1, ?_, ?_, ih4, ?_, ?_, ?_, ?_, ?_⟩
      · simp only [List.length_cons]; omega
      · simp only [List.length_cons, List.length_drop] at ih3 ⊢
        have : e.chunkSize ≤ buf.length := le_of_lt h.2
        calc ((writeLoop { e with pending := none, chunkIndex := e.chunkIndex + 1 }
                (buf.drop e.chunkSize)).2.length + 1) * e.chunkSize +
              (writeLoop { e with pending := none, chunkIndex := e.chunkIndex + 1 }
                (buf.drop e.chunkSize)).1.buf.length
            = ((writeLoop { e with pending := none, chunkIndex := e.chunkIndex + 1 }
                (buf.drop e.chunkSize)).2.length * e.chunkSize +
              (writeLoop { e with pending := none, chunkIndex := e.chunkIndex + 1 }
                (buf.drop e.chunkSize)).1.buf.length) + e.chunkSize := by ring
          _ = (buf.length - e.chunkSize) + e.chunkSize := by rw [ih3]
          _ = buf.length := by omega
      · constructor
        · intro hnil
          exfalso
          have h2 : buf.drop e.chunkSize = [] := ih5.1 hnil
          have := congrArg List.length h2
          simp only [List.length_drop, List.length_nil] at this
          omega
        · intro hnil
          have := congrArg List.length hnil
          simp only [List.length_nil] at this
          omega
      · intro c hc
        rcases List.mem_cons.1 hc with rfl | hc'
        · exact ⟨rfl, by simp [List.length_take]; omega⟩
        · exact ih6 c hc'
      · simp only [List.map_cons, List.length_cons]
        rw [ih7]
        rfl
      · intro hcontra; exact absurd hcontra (List.cons_ne_nil _ _)
      · intro c cs' heq
        injection heq with h1 h2
        subst h1
        constructor
        · rfl
        · rcases hcase : (writeLoop { e with pending := none, chunkIndex := e.chunkIndex + 1 }
              (buf.drop e.chunkSize)).2 with _ | ⟨c', cs''⟩
          · exact (ih8 hcase).1
          · exact (ih9 c' cs'' hcase).2
    · simp only [if_neg h]
      push_neg at h
      have hlen2 : buf.length ≤ e.chunkSize := h hcs
      simp [hlen2]

/-- Behavioural specification of a single `encryptor.Write` call. -/
theorem encWrite_spec (e : Encryptor) (data : List Nat)
    (hcs : 0 < e.chunkSize) :
    (encWrite e data).1.chunkSize = e.chunkSize ∧
    (encWrite e data).1.chunkIndex = e.chunkIndex + (encWrite e data).2.length ∧
    (encWrite e data).2.length * e.chunkSize + (encWrite e data).1.buf.length
      = e.buf.length + data.length ∧
    (e.buf.length ≤ e.chunkSize → (encWrite e data).1.buf.length ≤ e.chunkSize) ∧
    ((encWrite e data).1.buf = [] ↔ (e.buf = [] ∧ data = [])) ∧
    (∀ c ∈ (encWrite e data).2, c.isFinal = false ∧ c.plaintext.length = e.chunkSize) ∧
    ((encWrite e data).2.map Chunk.index = List.range' e.chunkIndex (encWrite e data).2.length) ∧
    ((encWrite e data).2 = [] → (encWrite e data).1.pending = e.pending) ∧
    (∀ c cs', (encWrite e data).2 = c :: cs' →
      c.prefixArg = e.pending ∧ (encWrite e data).1.pending = none) := by
  by_cases hd : data = []
  · subst hd
    simp only [encWrite, if_pos rfl]
    simp
  · simp only [encWrite, if_neg hd]
    obtain ⟨h1, h2, h3, h4, h5, h6, h7, h8, h9⟩ :=
      writeLoop_spec (e.buf ++ data).length (e.buf ++ data) le_rfl e hcs
    refine ⟨h1, h2, ?_, ?_, ?_, h6, h7, ?_, h9⟩
    · rw [h3]; simp
    · intro _; exact h4
    · rw [h5]; simp [hd]
    · intro hnil; exact (h8 hnil).1

/-- Behavioural specification of a sequence of `Write` calls starting from
a state whose in-progress buffer is within bounds. -/
theorem encWrites_spec (ws : List (List Nat)) : ∀ (e : Encryptor),
    0 < e.chunkSize → e.buf.length ≤ e.chunkSize →
    (encWrites e ws).1.chunkSize = e.chunkSize ∧
    (encWrites e ws).1.chunkIndex = e.chunkIndex + (encWrites e ws).2.length ∧
    (encWrites e ws).2.length * e.chunkSize + (encWrites e ws).1.buf.length
      = e.buf.length + (ws.map List.length).sum ∧
    (encWrites e ws).1.buf.length ≤ e.chunkSize ∧
    ((encWrites e ws).1.buf = [] ↔ (e.buf = [] ∧ (ws.map List.length).sum = 0)) ∧
    (∀ c ∈ (encWrites e ws).2, c.isFinal = false ∧ c.plaintext.length = e.chunkSize) ∧
    ((encWrites e ws).2.map Chunk.index = List.range' e.chunkIndex (encWrites e ws).2.length) ∧
    ((encWrites e ws).2 = [] → (encWrites e ws).1.pending = e.pending) ∧
    (∀ c cs', (encWrites e ws).2 = c :: cs' →
      c.prefixArg = e.pending ∧ (encWrites e ws).1.pending = none) := by
  induction ws with
  | nil =>
    intro e hcs hbuf
    simp [encWrites, hbuf]
  | cons w ws ih =>
    intro e hcs hbuf
    obtain ⟨w1, w2, w3, w4, w5, w6, w7, w8, w9⟩ := encWrite_spec e w hcs
    have hcs' : 0 < (encWrite e w).1.chunkSize := w1 ▸ hcs
    have hbuf' : (encWrite e w).1.buf.length ≤ (encWrite e w).1.chunkSize := by
      rw [w1]; exact w4 hbuf
    obtain ⟨i1, i2, i3, i4, i5, i6, i7, i8, i9⟩ := ih (encWrite e w).1 hcs' hbuf'
    show _ ∧ _ ∧ _ ∧ _ ∧ _ ∧ _ ∧ _ ∧ _ ∧ _
    simp only [encWrites]
    rw [w1] at i1 i3 i4 i6
    refine ⟨i1, ?_, ?_, i4, ?_, ?_, ?_, ?_, ?_⟩
    · simp only [List.length_append]
      rw [i2, w2]; ring
    · simp only [List.length_append, List.map_cons, List.sum_cons, Nat.add_mul]
      omega
    · rw [i5, w5]
      simp only [List.map_cons, List.sum_cons]
      constructor
      · rintro ⟨⟨hb, hw⟩, hs⟩
        exact ⟨hb, by simp [hw, hs]⟩
      · rintro ⟨hb, hs⟩
        have hw : w.length = 0 ∧ (List.map List.length ws).sum = 0 := by omega
        exact ⟨⟨hb, List.length_eq_zero.1 hw.1⟩, hw.2⟩
    · intro c hc
      rcases List.mem_append.1 hc with hc' | hc'
      · exact w6 c hc'
      · exact i6 c hc'
    · simp only [List.map_append, List.length_append]
      rw [w7, i7, w2, List.range'_append_1, Nat.add_comm]
    · intro hnil
      rcases List.append_eq_nil.1 hnil with ⟨hn1, hn2⟩
      rw [i8 hn2, w8 hn1]
    · intro c cs' heq
      rcases hw : (encWrite e w).2 with _ | ⟨c1, cs1⟩
      · rw [hw] at heq
        simp only [List.nil_append] at heq
        have hp := w8 hw
        have hi := i9 c cs' heq
        exact ⟨hi.1.trans hp, hi.2⟩
      · rw [hw] at heq
        simp only [List.cons_append] at heq
        injection heq with h1 h2
        subst h1
        refine ⟨(w9 _ _ hw).1, ?_⟩
        rcases hi : (encWrites (encWrite e w).1 ws).2 with _ | ⟨c2, cs2⟩
        · rw [i8 hi]; exact (w9 _ _ hw).2
        · exact (i9 _ _ hi).2

theorem encClose_eq (e : Encryptor) :
    encClose e = ({ e with pending := none, chunkIndex := e.chunkIndex + 1 },
      { prefixArg := e.pending, headerIndex := finalChunkIndex, index := e.chunkIndex,
        isFinal := true, plaintext := e.buf }) := rfl

/-- Master specification of a complete encryptor run (writes then Close)
from a freshly constructed state. -/
theorem encCloseRun_spec (ws : List (List Nat)) (e : Encryptor)
    (hcs : 0 < e.chunkSize) (hbuf : e.buf = []) :
    0 < (encCloseRun e ws).2.length ∧
    (encCloseRun e ws).2.length
      = max 1 (((ws.map List.length).sum + e.chunkSize - 1) / e.chunkSize) ∧
    (∃ init fin, (encCloseRun e ws).2 = init ++ [fin] ∧
      (∀ c ∈ init, c.isFinal = false ∧ c.plaintext.length = e.chunkSize) ∧
      fin.isFinal = true ∧ fin.headerIndex = finalChunkIndex ∧
      fin.plaintext.length ≤ e.chunkSize ∧
      (fin.plaintext = [] ↔ (ws.map List.length).sum = 0) ∧
      fin.plaintext.length
        = (ws.map List.length).sum - ((encCloseRun e ws).2.length - 1) * e.chunkSize) ∧
    ((encCloseRun e ws).2.map Chunk.index
      = List.range' e.chunkIndex (encCloseRun e ws).2.length) ∧
    (∀ c cs', (encCloseRun e ws).2 = c :: cs' → c.prefixArg = e.pending) := by
  obtain ⟨s1, s2, s3, s4, s5, s6, s7, s8, s9⟩ := encWrites_spec ws e hcs (by simp [hbuf])
  have hT : (encWrites e ws).2.length * e.chunkSize + (encWrites e ws).1.buf.length
      = (ws.map List.length).sum := by
    rw [s3, hbuf]; simp
  have hR0 : (encWrites e ws).1.buf.length = 0 ↔ (ws.map List.length).sum = 0 := by
    rw [List.length_eq_zero, s5, hbuf]; simp
  constructor
  · simp [encCloseRun]
  constructor
  · -- chunk count = max 1 (ceil (T / cs))
    have hk : (encCloseRun e ws).2.length = (encWrites e ws).2.length + 1 := by
      simp [encCloseRun]
    rw [hk]
    by_cases h0 : (ws.map List.length).sum = 0
    · have hR : (encWrites e ws).1.buf.length = 0 := hR0.2 h0
      have hm : (encWrites e ws).2.length = 0 := by
        have h' : (encWrites e ws).2.length * e.chunkSize = 0 := by omega
        rcases Nat.mul_eq_zero.1 h' with h | h
        · exact h
        · omega
      rw [hm, h0]
      have hz : (0 + e.chunkSize - 1) / e.chunkSize = 0 :=
        Nat.div_eq_of_lt (by omega)
      rw [hz]
      simp
    · have hR : 1 ≤ (encWrites e ws).1.buf.length := by
        rcases Nat.eq_zero_or_pos (encWrites e ws).1.buf.length with h | h
        · exact absurd (hR0.1 h) h0
        · exact h
      have hdiv : ((ws.map List.length).sum + e.chunkSize - 1) / e.chunkSize
          = (encWrites e ws).2.length + 1 := by
        rw [← hT]
        have hrw : (encWrites e ws).2.length * e.chunkSize + (encWrites e ws).1.buf.length
            + e.chunkSize - 1
            = ((encWrites e ws).1.buf.length + e.chunkSize - 1)
              + (encWrites e ws).2.length * e.chunkSize := by omega
        rw [hrw, Nat.add_mul_div_right _ _ hcs]
        have h1 : ((encWrites e ws).1.buf.length + e.chunkSize - 1) / e.chunkSize = 1 :=
          Nat.div_eq_of_lt_le (by omega) (by omega)
        omega
      rw [hdiv]
      omega
  constructor
  · refine ⟨(encWrites e ws).2, _, rfl, s6, rfl, rfl, s4, ?_, ?_⟩
    · simp only [encClose_eq]
      rw [← List.length_eq_zero, hR0]
    · have hk1 : (encCloseRun e ws).2.length - 1 = (encWrites e ws).2.length := by
        simp [encCloseRun]
      rw [hk1]
      simp only [encClose_eq]
      omega
  constructor
  · simp only [encCloseRun, List.map_append, List.length_append, List.map_cons,
      List.map_nil, List.length_cons, List.length_nil, encClose_eq]
    rw [s7, s2]
    have hra := List.range'_append_1 e.chunkIndex (encWrites e ws).2.length 1
    simpa [Nat.add_comm] using hra
  · intro c cs' heq
    rcases hw : (encWrites e ws).2 with _ | ⟨c1, cs1⟩
    · simp only [encCloseRun, hw, List.nil_append, encClose_eq] at heq
      injection heq with h1 h2
      subst h1
      simp [← s8 hw]
    · simp only [encCloseRun, hw, List.cons_append, encClose_eq] at heq
      injection heq with h1 h2
      subst h1
      exact (s9 _ _ hw).1

/-! ### Claim theorems: nonce derivation, Prepare, encapsulation -/

/-- Claim C6: for every chunk index `i` and finality flag, the derived
96-bit nonce has bytes 0-3 equal to the little-endian encoding of the true
index `i` (in `flush`, the true running counter — never the sentinel, even
when the frame header carries the sentinel), bytes 4-10 equal to zero, and
byte 11 equal to 1 exactly when the chunk is final; hence the nonce of a
final chunk differs from the nonce of every non-final chunk. -/
theorem claim6_nonce_derivation (i : Nat) (isFinal : Bool) :
    (fillNonce i isFinal).length = nonceSizeS ∧
    (fillNonce i isFinal).take 4 = putUint32LE i ∧
    (∀ j, 4 ≤ j → j < 11 → (fillNonce i isFinal).getD j 0 = 0) ∧
    (fillNonce i isFinal).getD 11 0 = (if isFinal then 1 else 0) ∧
    (∀ i' : Nat, fillNonce i true ≠ fillNonce i' false) ∧
    (∀ (e : Encryptor) (buf : List Nat) (f : Bool),
      (flush e buf f).2.index = e.chunkIndex ∧
      (flush e buf f).2.headerIndex
        = (if f then finalChunkIndex else e.chunkIndex % 2 ^ 32)) := by
  refine ⟨length_fillNonce i isFinal, ?_, ?_, ?_, ?_, ?_⟩
  · exact List.take_left' (length_putUint32LE i)
  · intro j h4 h11
    interval_cases j <;> rfl
  · rfl
  · intro i' h
    have h11 : (1 : Nat) = 0 := congrArg (fun l => l.getD 11 0) h
    exact absurd h11 one_ne_zero
  · intro e buf f
    exact ⟨rfl, rfl⟩

/-- Claim C8: `Prepare` returns `UnsupportedVersion` exactly when the
parsed header version is nonzero, `ChunkSizeTooLarge` exactly when the
parsed chunk size is 0 or above `MaxChunkSize`, and otherwise an
`Openable` whose key ID is bytes 8-40 of the header and whose chunk size
and encapsulated key come from the header; the version check runs before
the chunk-size check. -/
theorem claim8_prepare_parsing (input outer : List Nat)
    (h : headerSize ≤ input.length) :
    (readUint32LE (input.take headerSize) ≠ 0 →
      Prepare input outer = .error .unsupportedVersion) ∧
    (readUint32LE (input.take headerSize) = 0 →
      (readUint32LE ((input.take headerSize).drop offChunkSize) = 0 ∨
        MaxChunkSize < readUint32LE ((input.take headerSize).drop offChunkSize)) →
      Prepare input outer = .error .chunkSizeTooLarge) ∧
    (readUint32LE (input.take headerSize) = 0 →
      0 < readUint32LE ((input.take headerSize).drop offChunkSize) →
      readUint32LE ((input.take headerSize).drop offChunkSize) ≤ MaxChunkSize →
      Prepare input outer = .ok {
        KeyID := ((input.take headerSize).drop offKeyID).take IDSize,
        rest := input.drop headerSize,
        prefixBytes := outer ++ input.take headerSize,
        chunkSize := readUint32LE ((input.take headerSize).drop offChunkSize),
        encapsulated := ((input.take headerSize).drop offEncKey).take
          (nonceSizeX + KeySize + overhead) }) := by
  have hnl : ¬input.length < headerSize := not_lt.2 h
  refine ⟨?_, ?_, ?_⟩
  · intro hv
    simp only [Prepare, if_neg hnl, offVersion, List.drop_zero]
    rw [if_pos hv]
  · intro hv hcs
    simp only [Prepare, if_neg hnl, offVersion, List.drop_zero]
    rw [if_neg (by simpa using hv), if_pos hcs]
  · intro hv hcs1 hcs2
    simp only [Prepare, if_neg hnl, offVersion, List.drop_zero]
    rw [if_neg (by simpa using hv), if_neg (by push_neg; constructor <;> omega)]

/-- Claim C9: key-wrapping round trip — `decapsulate` with the same user
key recovers the ephemeral key from the 72-byte output of `encapsulate`,
given the XChaCha20-Poly1305 contract (48-byte sealed blob, open inverts
seal) for the values involved. -/
theorem claim9_encapsulation_roundtrip (X : XAEAD) (userKey nonce eph : List Nat)
    (hn : nonce.length = nonceSizeX) (he : eph.length = KeySize)
    (hlen : (X.Seal userKey nonce eph []).length = KeySize + overhead)
    (hrt : X.Opn userKey nonce (X.Seal userKey nonce eph []) [] = some eph) :
    (encapsulate X userKey (nonce ++ eph)).length = nonceSizeX + KeySize + overhead ∧
    decapsulate X userKey (encapsulate X userKey (nonce ++ eph)) = some eph := by
  have ht : (nonce ++ eph).take nonceSizeX = nonce := List.take_left' hn
  have hd : ((nonce ++ eph).drop nonceSizeX).take KeySize = eph := by
    rw [List.drop_left' hn]
    exact he ▸ List.take_length eph
  have henc : encapsulate X userKey (nonce ++ eph) = nonce ++ X.Seal userKey nonce eph [] := by
    unfold encapsulate
    rw [ht, hd]
  constructor
  · rw [henc]
    simp only [List.length_append, hn, hlen, nonceSizeX, KeySize, overhead]
  · unfold decapsulate
    rw [henc, List.take_left' hn, List.drop_left' hn,
        List.take_of_length_le (le_of_eq hlen)]
    exact hrt

/-! ### The missing version field: `Seal`'s output is rejected by `Prepare` -/

theorem stream_nil (A : AEAD) : stream A [] = [] := rfl

theorem stream_cons (A : AEAD) (c : Chunk) (cs : List Chunk) :
    stream A (c :: cs) = Chunk.wire A c ++ stream A cs := by
  simp [stream]

theorem readUint32LE_take (l : List Nat) (k : Nat) (h : 4 ≤ k) :
    readUint32LE (l.take k) = readUint32LE l := by
  unfold readUint32LE
  have g : ∀ i, i < k → (l.take k).getD i 0 = l.getD i 0 := by
    intro i hi
    simp [List.getD_eq_getElem?_getD, List.getElem?_take_of_lt hi]
  rw [g 0 (by omega), g 1 (by omega), g 2 (by omega), g 3 (by omega)]

/-- Shared fact behind claims C1, C2 and C10: the prefix `Seal` builds has
no version field (`seal.go` appends `LE32(chunkSize)` directly after the
outer prefix), so `Prepare` parses the chunk size as the version and
rejects every stream the sealer emits with `UnsupportedVersion` (whenever
the chunk size is nonzero as a `uint32`, which normalisation guarantees
for every realistic option value). -/
theorem sealStream_prepare_rejects (A : AEAD) (X : XAEAD)
    (userKey keyID outer : List Nat) (optCS : Nat) (rnd : List Nat) (ws : List (List Nat))
    (hid : keyID.length = IDSize)
    (hencap : (encapsulate X userKey rnd).length = nonceSizeX + KeySize + overhead)
    (hv : sealNormalize optCS % 2 ^ 32 ≠ 0) :
    Prepare ((stream A (encCloseRun (sealInit X userKey keyID outer optCS rnd) ws).2).drop
      outer.length) outer = .error .unsupportedVersion := by
  have hcs0 : 0 < (sealInit X userKey keyID outer optCS rnd).chunkSize := by
    rcases Nat.eq_zero_or_pos (sealNormalize optCS) with h | h
    · exact absurd (by simp [h]) hv
    · exact h
  obtain ⟨hpos, -, -, -, hhead⟩ :=
    encCloseRun_spec ws (sealInit X userKey keyID outer optCS rnd) hcs0 rfl
  rcases hr : (encCloseRun (sealInit X userKey keyID outer optCS rnd) ws).2 with - | ⟨c, cs'⟩
  · rw [hr] at hpos
    simp at hpos
  · have hpa : c.prefixArg
        = some (outer ++ putUint32LE (sealNormalize optCS) ++ keyID
            ++ encapsulate X userKey rnd) :=
      hhead c cs' hr
    rw [stream_cons]
    have hwire : Chunk.wire A c
        = (outer ++ putUint32LE (sealNormalize optCS) ++ keyID ++ encapsulate X userKey rnd)
          ++ putUint32LE c.headerIndex
          ++ A.Seal (fillNonce c.index c.isFinal) c.plaintext
            (outer ++ putUint32LE (sealNormalize optCS) ++ keyID ++ encapsulate X userKey rnd) := by
      rw [Chunk.wire, hpa]
      rfl
    rw [hwire]
    simp only [List.append_assoc, List.drop_left]
    have hlen : ¬ (putUint32LE (sealNormalize optCS) ++ (keyID ++ (encapsulate X userKey rnd
        ++ (putUint32LE c.headerIndex
          ++ (A.Seal (fillNonce c.index c.isFinal) c.plaintext
              (outer ++ (putUint32LE (sealNormalize optCS) ++ (keyID
                ++ encapsulate X userKey rnd))) ++ stream A cs'))))).length < headerSize := by
      simp only [List.length_append, length_putUint32LE, hid, hencap,
        IDSize, nonceSizeX, KeySize, overhead, headerSize]
      omega
    rw [Prepare, if_neg hlen]
    simp only [offVersion, List.drop_zero]
    have hversion : readUint32LE ((putUint32LE (sealNormalize optCS) ++ (keyID
        ++ (encapsulate X userKey rnd ++ (putUint32LE c.headerIndex
          ++ (A.Seal (fillNonce c.index c.isFinal) c.plaintext
              (outer ++ (putUint32LE (sealNormalize optCS) ++ (keyID
                ++ encapsulate X userKey rnd))) ++ stream A cs'))))).take headerSize)
        = sealNormalize optCS % 2 ^ 32 := by
      rw [readUint32LE_take _ headerSize
          (by simp [headerSize, IDSize, nonceSizeX, KeySize, overhead]),
        readUint32LE_putUint32LE_append]
    simp only [hversion]
    rw [if_pos hv]

/-- Claim C1 (code bug): the spec and the repository's own tests require
the round trip `Open (Seal plaintext) = plaintext`, but the byte stream
`Seal` emits (for any user key, outer prefix, options, randomness and any
sequence of compressed bytes reaching the encryptor) is already rejected
by `Prepare` with `UnsupportedVersion`, because the sealer never writes
the version field: the header it emits starts with the chunk size.  The
round trip therefore fails before `Open` can run. -/
theorem claim1_roundtrip_broken (A : AEAD) (X : XAEAD)
    (userKey keyID outer : List Nat) (optCS : Nat) (rnd : List Nat) (ws : List (List Nat))
    (hid : keyID.length = IDSize)
    (hencap : (encapsulate X userKey rnd).length = nonceSizeX + KeySize + overhead)
    (hv : sealNormalize optCS % 2 ^ 32 ≠ 0) :
    Prepare ((stream A (encCloseRun (sealInit X userKey keyID outer optCS rnd) ws).2).drop
      outer.length) outer = .error .unsupportedVersion :=
  sealStream_prepare_rejects A X userKey keyID outer optCS rnd ws hid hencap hv

/-- Witness for C1: a fully concrete seal run (user key `[1]`, 32-byte key
ID, 1-byte outer prefix, chunk size 8, fixed randomness, one write) whose
output `Prepare` rejects. -/
theorem claim1_roundtrip_broken_witness :
    Prepare ((stream (mkAEAD [0]) (encCloseRun
        (sealInit mkXAEAD [1] (List.replicate 32 2) [9] 8 (List.replicate 56 3))
        [[1, 2, 3]]).2).drop (List.length [9])) [9]
      = .error .unsupportedVersion :=
  claim1_roundtrip_broken (mkAEAD [0]) mkXAEAD [1] (List.replicate 32 2) [9] 8
    (List.replicate 56 3) [[1, 2, 3]] (by decide) (by decide) (by decide)

/-- Claim C2 (code bug): the spec says the pending prefix is
`outer_prefix ‖ LE32(0) ‖ LE32(chunk_size) ‖ key_id ‖ encapsulated_key`
(112-byte header starting with the version field 0).  The code
(`seal.go`) actually builds `outer_prefix ‖ LE32(chunk_size) ‖ key_id ‖
encapsulated_key`: a 108-byte header with no version field, whose first
four bytes are the chunk size and hence are not `LE32 0`. -/
theorem claim2_header_missing_version (X : XAEAD)
    (userKey keyID outer : List Nat) (optCS : Nat) (rnd : List Nat)
    (hid : keyID.length = IDSize)
    (hencap : (encapsulate X userKey rnd).length = nonceSizeX + KeySize + overhead)
    (hv : sealNormalize optCS % 2 ^ 32 ≠ 0) :
    (sealInit X userKey keyID outer optCS rnd).pending
      = some (outer ++ putUint32LE (sealNormalize optCS) ++ keyID
          ++ encapsulate X userKey rnd) ∧
    (putUint32LE (sealNormalize optCS) ++ keyID ++ encapsulate X userKey rnd).length
      = headerSize - 4 ∧
    (putUint32LE (sealNormalize optCS) ++ keyID ++ encapsulate X userKey rnd).take 4
      ≠ putUint32LE 0 := by
  refine ⟨rfl, ?_, ?_⟩
  · simp only [List.length_append, length_putUint32LE, hid, hencap,
      IDSize, nonceSizeX, KeySize, overhead, headerSize]
  · intro h
    rw [List.append_assoc, List.take_left' (length_putUint32LE _)] at h
    have := congrArg readUint32LE h
    rw [readUint32LE_putUint32LE, readUint32LE_putUint32LE] at this
    simp at this
    exact hv this

/-- Witness for C2: the concrete sealer state of the C1 witness, whose
pending prefix is the outer byte followed by a 108-byte header starting
with `LE32 8`. -/
theorem claim2_header_missing_version_witness :
    (sealInit mkXAEAD [1] (List.replicate 32 2) [9] 8 (List.replicate 56 3)).pending
      = some ([9] ++ putUint32LE 8 ++ List.replicate 32 2
          ++ encapsulate mkXAEAD [1] (List.replicate 56 3)) ∧
    (putUint32LE 8 ++ List.replicate 32 2
        ++ encapsulate mkXAEAD [1] (List.replicate 56 3)).length = headerSize - 4 ∧
    (putUint32LE 8 ++ List.replicate 32 2
        ++ encapsulate mkXAEAD [1] (List.replicate 56 3)).take 4 ≠ putUint32LE 0 := by
  have h := claim2_header_missing_version mkXAEAD [1] (List.replicate 32 2) [9] 8
    (List.replicate 56 3) (by decide) (by decide) (by decide)
  simpa using h

/-- Claim C10 (code bug, the true part proved): `Seal` never validates the
chunk size against `MaxChunkSize` — only a zero value is rewritten (to
`DefaultChunkSize`), and any oversized value is accepted unchanged, so the
sealer willingly emits a stream with an oversized chunk size and only the
open side enforces the bound.  The divergence: because the version field
is missing from the emitted header (see C2), `Prepare` rejects that
stream with `UnsupportedVersion` rather than the claimed
`ChunkSizeTooLarge`. -/
theorem claim10_no_upper_bound_check (A : AEAD) (X : XAEAD)
    (userKey keyID outer : List Nat) (optCS : Nat) (rnd : List Nat) (ws : List (List Nat))
    (hid : keyID.length = IDSize)
    (hencap : (encapsulate X userKey rnd).length = nonceSizeX + KeySize + overhead)
    (hbig : MaxChunkSize < optCS) (hlt : optCS < 2 ^ 32) :
    sealNormalize 0 = DefaultChunkSize ∧
    sealNormalize optCS = optCS ∧
    (sealInit X userKey keyID outer optCS rnd).chunkSize = optCS ∧
    MaxChunkSize < (sealInit X userKey keyID outer optCS rnd).chunkSize ∧
    Prepare ((stream A (encCloseRun (sealInit X userKey keyID outer optCS rnd) ws).2).drop
        outer.length) outer = .error .unsupportedVersion ∧
    Prepare ((stream A (encCloseRun (sealInit X userKey keyID outer optCS rnd) ws).2).drop
        outer.length) outer ≠ .error .chunkSizeTooLarge := by
  have h0 : optCS ≠ 0 := by
    intro h
    rw [h] at hbig
    exact absurd hbig (by decide)
  have hnorm : sealNormalize optCS = optCS := if_neg h0
  have hv : sealNormalize optCS % 2 ^ 32 ≠ 0 := by
    rw [hnorm, Nat.mod_eq_of_lt hlt]
    exact h0
  have hrej := sealStream_prepare_rejects A X userKey keyID outer optCS rnd ws hid hencap hv
  refine ⟨rfl, hnorm, hnorm, ?_, hrej, ?_⟩
  · show MaxChunkSize < sealNormalize optCS
    rw [hnorm]
    exact hbig
  · rw [hrej]
    intro h
    injection h with h'
    exact absurd h' (by decide)

/-- Witness for C10: chunk size `MaxChunkSize + 1 = 1048577` is accepted
unchanged by `Seal` and the resulting stream is rejected by `Prepare`
with `UnsupportedVersion`. -/
theorem claim10_no_upper_bound_check_witness :
    sealNormalize 0 = DefaultChunkSize ∧
    sealNormalize 1048577 = 1048577 ∧
    (sealInit mkXAEAD [1] (List.replicate 32 2) [9] 1048577 (List.replicate 56 3)).chunkSize
      = 1048577 ∧
    MaxChunkSize
      < (sealInit mkXAEAD [1] (List.replicate 32 2) [9] 1048577 (List.replicate 56 3)).chunkSize ∧
    Prepare ((stream (mkAEAD [0]) (encCloseRun
        (sealInit mkXAEAD [1] (List.replicate 32 2) [9] 1048577 (List.replicate 56 3))
        [[1, 2, 3]]).2).drop (List.length [9])) [9] = .error .unsupportedVersion ∧
    Prepare ((stream (mkAEAD [0]) (encCloseRun
        (sealInit mkXAEAD [1] (List.replicate 32 2) [9] 1048577 (List.replicate 56 3))
        [[1, 2, 3]]).2).drop (List.length [9])) [9] ≠ .error .chunkSizeTooLarge :=
  claim10_no_upper_bound_check (mkAEAD [0]) mkXAEAD [1] (List.replicate 32 2) [9] 1048577
    (List.replicate 56 3) [[1, 2, 3]] (by decide) (by decide) (by decide) (by decide)

/-- Witness for C8: a concrete well-formed 112-byte header (version 0,
chunk size 8, key-ID bytes 7) accepted by `Prepare` with the documented
fields. -/
theorem claim8_prepare_parsing_witness :
    Prepare (putUint32LE 0 ++ putUint32LE 8 ++ List.replicate 104 7) [1, 2]
      = .ok { KeyID := List.replicate 32 7, rest := [],
              prefixBytes := [1, 2] ++ (putUint32LE 0 ++ putUint32LE 8 ++ List.replicate 104 7),
              chunkSize := 8, encapsulated := List.replicate 72 7 } := by
  have h := (claim8_prepare_parsing (putUint32LE 0 ++ putUint32LE 8 ++ List.replicate 104 7)
    [1, 2] (by decide)).2.2 (by decide) (by decide) (by decide)
  rw [h]
  decide

/-- Witness for C9: the toy XChaCha20-Poly1305 instance wraps and unwraps
a concrete ephemeral key. -/
theorem claim9_encapsulation_roundtrip_witness :
    (encapsulate mkXAEAD [1] (List.replicate 24 0 ++ List.replicate 32 5)).length
      = nonceSizeX + KeySize + overhead ∧
    decapsulate mkXAEAD [1]
        (encapsulate mkXAEAD [1] (List.replicate 24 0 ++ List.replicate 32 5))
      = some (List.replicate 32 5) :=
  claim9_encapsulation_roundtrip mkXAEAD [1] (List.replicate 24 0) (List.replicate 32 5)
    (by decide) (by decide) (by decide) (by decide)

/-! ### Chunking invariants and the final-chunk size -/

/-- Counterexample to claim C3 as stated: feed exactly `chunk_size` bytes
(an exact nonzero multiple: `1 × 1`) to the encryptor and close.  One
chunk frame is emitted (`= ceil(1/1)`), but the final chunk carries the
byte, not zero bytes: the flush loop only emits while the buffer holds
*more than* `chunk_size` bytes, so the final chunk is empty only when
nothing was written. -/
theorem claim3_counterexample :
    (List.map List.length [[42]]).sum = 1 * 1 ∧
    (encCloseRun { chunkSize := 1, pending := some [], buf := [], chunkIndex := 0 } [[42]]).2
      = [{ prefixArg := some [], headerIndex := finalChunkIndex, index := 0,
           isFinal := true, plaintext := [42] }] ∧
    (∀ c ∈ (encCloseRun { chunkSize := 1, pending := some [], buf := [], chunkIndex := 0 }
        [[42]]).2, c.isFinal = true ∧ c.plaintext ≠ []) := by
  decide

/-- Claim C3, amended: for every input stream fed to the encryptor, the
number of chunk frames equals `ceil(compressed_size / chunk_size)` with a
minimum of 1 (as claimed); but the final chunk carries zero plaintext
bytes iff the total input was empty — when the total is an exact nonzero
multiple of `chunk_size` the final chunk carries exactly `chunk_size`
bytes. -/
theorem claim3_amended_chunk_count (e : Encryptor) (ws : List (List Nat))
    (hcs : 0 < e.chunkSize) (hbuf : e.buf = []) :
    (encCloseRun e ws).2.length
      = max 1 (((ws.map List.length).sum + e.chunkSize - 1) / e.chunkSize) ∧
    (∃ init fin, (encCloseRun e ws).2 = init ++ [fin] ∧ fin.isFinal = true ∧
      (fin.plaintext = [] ↔ (ws.map List.length).sum = 0) ∧
      ((ws.map List.length).sum % e.chunkSize = 0 → 0 < (ws.map List.length).sum →
        fin.plaintext.length = e.chunkSize)) := by
  obtain ⟨hpos, hcount, ⟨init, fin, heq, hinit, hfinal, hhdr, hle, hempty, hlen⟩, hmap, hhead⟩ :=
    encCloseRun_spec ws e hcs hbuf
  refine ⟨hcount, init, fin, heq, hfinal, hempty, ?_⟩
  intro hmod hposT
  obtain ⟨q, hq⟩ := Nat.dvd_of_mod_eq_zero hmod
  have hq1 : 1 ≤ q := by
    rcases Nat.eq_zero_or_pos q with h | h
    · rw [h, Nat.mul_zero] at hq
      omega
    · exact h
  have harr : (ws.map List.length).sum + e.chunkSize - 1 = (e.chunkSize - 1) + q * e.chunkSize := by
    rw [hq, Nat.mul_comm]
    omega
  have hdiv : ((ws.map List.length).sum + e.chunkSize - 1) / e.chunkSize = q := by
    rw [harr, Nat.add_mul_div_right _ _ hcs, Nat.div_eq_of_lt (by omega), Nat.zero_add]
  have hk : (encCloseRun e ws).2.length = q := by
    rw [hcount, hdiv]
    exact Nat.max_eq_right hq1
  rw [hlen, hk, hq, Nat.mul_comm e.chunkSize q, Nat.sub_mul, Nat.one_mul]
  have hle2 : e.chunkSize ≤ q * e.chunkSize := Nat.le_mul_of_pos_left _ hq1
  omega

/-- Witness for the amended C3: chunk size 2, one 4-byte write (an exact
multiple): two chunks, and the final chunk carries 2 bytes. -/
theorem claim3_amended_chunk_count_witness :
    (encCloseRun { chunkSize := 2, pending := some [], buf := [], chunkIndex := 0 }
        [[1, 2, 3, 4]]).2.length
      = max 1 (((List.map List.length [[1, 2, 3, 4]]).sum + 2 - 1) / 2) ∧
    (∃ init fin, (encCloseRun { chunkSize := 2, pending := some [], buf := [], chunkIndex := 0 }
        [[1, 2, 3, 4]]).2 = init ++ [fin] ∧ fin.isFinal = true ∧
      (fin.plaintext = [] ↔ (List.map List.length [[1, 2, 3, 4]]).sum = 0) ∧
      ((List.map List.length [[1, 2, 3, 4]]).sum % 2 = 0 →
        0 < (List.map List.length [[1, 2, 3, 4]]).sum → fin.plaintext.length = 2)) :=
  claim3_amended_chunk_count
    { chunkSize := 2, pending := some [], buf := [], chunkIndex := 0 }
    [[1, 2, 3, 4]] (by decide) (by decide)

/-- Claim C7: in every stream the encryptor produces, each non-final
chunk carries exactly `chunk_size` plaintext bytes, the single final
chunk carries between 0 and `chunk_size` bytes, chunk indices used in
nonces advance by 1 starting at 0, and after every `Write` the
in-progress buffer holds at most `chunk_size` bytes. -/
theorem claim7_chunk_framing_invariants (e : Encryptor) (ws : List (List Nat))
    (hcs : 0 < e.chunkSize) (hbuf : e.buf = []) (hidx : e.chunkIndex = 0) :
    (∃ init fin, (encCloseRun e ws).2 = init ++ [fin] ∧
      (∀ c ∈ init, c.isFinal = false ∧ c.plaintext.length = e.chunkSize) ∧
      fin.isFinal = true ∧ fin.plaintext.length ≤ e.chunkSize) ∧
    ((encCloseRun e ws).2.map Chunk.index
      = List.range' 0 (encCloseRun e ws).2.length) ∧
    (∀ (e' : Encryptor) (data : List Nat),
      e'.buf.length ≤ e'.chunkSize → 0 < e'.chunkSize →
      (encWrite e' data).1.buf.length ≤ e'.chunkSize) := by
  obtain ⟨hpos, hcount, ⟨init, fin, heq, hinit, hfinal, hhdr, hle, hempty, hlen⟩, hmap, hhead⟩ :=
    encCloseRun_spec ws e hcs hbuf
  refine ⟨⟨init, fin, heq, hinit, hfinal, hle⟩, ?_, ?_⟩
  · rw [← hidx]
    exact hmap
  · intro e' data hble hcs'
    exact (encWrite_spec e' data hcs').2.2.2.1 hble

/-- Witness for C7 at chunk size 2 with writes of 3 and 2 bytes. -/
theorem claim7_chunk_framing_invariants_witness :
    (∃ init fin, (encCloseRun { chunkSize := 2, pending := some [6], buf := [], chunkIndex := 0 }
        [[1, 2, 3], [4, 5]]).2 = init ++ [fin] ∧
      (∀ c ∈ init, c.isFinal = false ∧ c.plaintext.length = 2) ∧
      fin.isFinal = true ∧ fin.plaintext.length ≤ 2) ∧
    ((encCloseRun { chunkSize := 2, pending := some [6], buf := [], chunkIndex := 0 }
        [[1, 2, 3], [4, 5]]).2.map Chunk.index
      = List.range' 0 (encCloseRun { chunkSize := 2, pending := some [6], buf := [], chunkIndex := 0 } [[1, 2, 3], [4, 5]]).2.length) ∧
    (∀ (e' : Encryptor) (data : List Nat),
      e'.buf.length ≤ e'.chunkSize → 0 < e'.chunkSize →
      (encWrite e' data).1.buf.length ≤ e'.chunkSize) :=
  claim7_chunk_framing_invariants
    { chunkSize := 2, pending := some [6], buf := [], chunkIndex := 0 }
    [[1, 2, 3], [4, 5]] (by decide) (by decide) (by decide)

/-! ### The encryptor has no closed state (C5) -/

/-- Counterexample to claim C5 as stated: after `Close` has emitted the
final chunk, a further `Write` on the encryptor is accepted (the code has
no closed flag and its only error source is the sink): it emits a further
non-final chunk with the next index instead of returning an
`AlreadyClosed` error. -/
theorem claim5_counterexample :
    (encWrite (encClose { chunkSize := 2, pending := some [7], buf := [], chunkIndex := 0 }).1 [1, 2, 3]).2
      = [{ prefixArg := none, headerIndex := 1, index := 1, isFinal := false,
           plaintext := [1, 2] }] ∧
    (encWrite (encClose { chunkSize := 2, pending := some [7], buf := [], chunkIndex := 0 }).1 [1, 2, 3]).1.buf = [3] := by
  decide

/-- Claim C5, amended: `close()` emits the final chunk, clears the
pending prefix and advances the index, but the encryptor is not consumed:
a subsequent `write` is processed like any other write — accepted without
error, emitting further non-final chunks with continuing indices.  (The
`AlreadyClosed`-style rejection of writes after close exists only one
layer up, in the zstd compressor used by `Writer`, outside this
package's code.) -/
theorem claim5_amended_no_closed_state (e : Encryptor) (data : List Nat)
    (hcs : 0 < e.chunkSize) :
    (encClose e).2.isFinal = true ∧
    (encClose e).2.plaintext = e.buf ∧
    (encClose e).1.pending = none ∧
    (encClose e).1.chunkIndex = e.chunkIndex + 1 ∧
    (encWrite (encClose e).1 data).1.chunkIndex
      = e.chunkIndex + 1 + (encWrite (encClose e).1 data).2.length ∧
    (∀ c ∈ (encWrite (encClose e).1 data).2,
      c.isFinal = false ∧ e.chunkIndex + 1 ≤ c.index) := by
  have hcs' : 0 < (encClose e).1.chunkSize := hcs
  obtain ⟨g1, g2, g3, g4, g5, g6, g7, g8, g9⟩ := encWrite_spec (encClose e).1 data hcs'
  refine ⟨rfl, rfl, rfl, rfl, g2, ?_⟩
  intro c hc
  refine ⟨(g6 c hc).1, ?_⟩
  have hmem : c.index ∈ (encWrite (encClose e).1 data).2.map Chunk.index :=
    List.mem_map_of_mem _ hc
  rw [g7] at hmem
  exact (List.mem_range'_1.1 hmem).1

/-- Witness for the amended C5 at a concrete post-close write. -/
theorem claim5_amended_no_closed_state_witness :
    (encClose { chunkSize := 2, pending := some [7], buf := [], chunkIndex := 0 }).2.isFinal = true ∧
    (encClose { chunkSize := 2, pending := some [7], buf := [], chunkIndex := 0 }).2.plaintext = [] ∧
    (encClose { chunkSize := 2, pending := some [7], buf := [], chunkIndex := 0 }).1.pending = none ∧
    (encClose { chunkSize := 2, pending := some [7], buf := [], chunkIndex := 0 }).1.chunkIndex = 0 + 1 ∧
    (encWrite (encClose { chunkSize := 2, pending := some [7], buf := [], chunkIndex := 0 }).1 [1, 2, 3]).1.chunkIndex
      = 0 + 1 + (encWrite (encClose { chunkSize := 2, pending := some [7], buf := [], chunkIndex := 0 }).1 [1, 2, 3]).2.length ∧
    (∀ c ∈ (encWrite (encClose { chunkSize := 2, pending := some [7], buf := [], chunkIndex := 0 }).1 [1, 2, 3]).2,
      c.isFinal = false ∧ 0 + 1 ≤ c.index) :=
  claim5_amended_no_closed_state
    { chunkSize := 2, pending := some [7], buf := [], chunkIndex := 0 } [1, 2, 3] (by decide)

/-! ### The decryptor has no terminal error state (C4) -/

/-- Counterexample to claim C4 as stated: a concrete two-frame stream
(chunk size 2) whose first frame has a bad tag and whose second frame is
a valid final chunk.  The first read returns `AuthFailed`, but the second
read does not repeat that error: it succeeds and hands the later chunk's
plaintext `[7, 7]` to the caller — the decryptor has no terminal error
state and the chunk index has already advanced past the failed chunk. -/
theorem claim4_counterexample :
    (decRead (mkAEAD [3]) (Decryptor.mk 2
        ((putUint32LE 0 ++ [9, 9] ++ List.replicate 16 4)
          ++ (putUint32LE finalChunkIndex ++ [7, 7] ++ List.replicate 16 5))
        [] 0 false) 10).2.2 = some .authFailed ∧
    (decRead (mkAEAD [3]) (decRead (mkAEAD [3]) (Decryptor.mk 2
        ((putUint32LE 0 ++ [9, 9] ++ List.replicate 16 4)
          ++ (putUint32LE finalChunkIndex ++ [7, 7] ++ List.replicate 16 5))
        [] 0 false) 10).1 10).2.2 = none ∧
    (decRead (mkAEAD [3]) (decRead (mkAEAD [3]) (Decryptor.mk 2
        ((putUint32LE 0 ++ [9, 9] ++ List.replicate 16 4)
          ++ (putUint32LE finalChunkIndex ++ [7, 7] ++ List.replicate 16 5))
        [] 0 false) 10).1 10).2.1 = [7, 7] := by
  decide

/-- Claim C4, amended: the decryptor latches only end-of-stream: once
`eof` is set by a successful final chunk, every later pull and read
returns end-of-stream with the state unchanged.  The error returns
(`AuthFailed` / `Corrupted` / `Truncated`) are not latched: the failing
frame's bytes are consumed, `eof` stays false and the decoded slice is
unchanged (empty in a `Read`-driven sequence), so the next read pulls the
following frame and can expose its plaintext; after an `AuthFailed` the
expected chunk index has moreover already advanced past the failed
chunk. -/
theorem claim4_amended_no_terminal_error (A : AEAD) (d : Decryptor)
    (aad : List Nat) (pLen : Nat) :
    (d.eof = true → decPull A d aad = (d, some .endOfStream)) ∧
    (d.eof = true → d.buf = [] → decRead A d pLen = (d, [], some .endOfStream)) ∧
    (∀ (d' : Decryptor) (err : SealError), decPull A d aad = (d', some err) →
      err ≠ .endOfStream →
      d'.eof = false ∧ d'.buf = d.buf ∧
      d'.input = d.input.drop (chunkHeaderSize + d.chunkSize + overhead)) ∧
    (∀ d' : Decryptor, decPull A d aad = (d', some .authFailed) →
      d'.chunkIndex = d.chunkIndex + 1) := by
  refine ⟨?_, ?_, ?_, ?_⟩
  · intro he
    simp [decPull, he]
  · intro he hb
    simp [decRead, decPull, he, hb]
  · intro d' err heq hne
    cases he : d.eof with
    | true =>
      rw [decPull, if_pos he] at heq
      injection heq with h1 h2
      injection h2 with h3
      exact absurd h3.symm hne
    | false =>
      simp only [decPull, he, Bool.false_eq_true, if_false] at heq
      split at heq
      · injection heq with h1 h2
        subst h1
        exact ⟨rfl, rfl, rfl⟩
      · split at heq
        · injection heq with h1 h2
          subst h1
          exact ⟨rfl, rfl, rfl⟩
        · split at heq
          · injection heq with h1 h2
            subst h1
            exact ⟨rfl, rfl, rfl⟩
          · injection heq with h1 h2
            exact Option.noConfusion h2
  · intro d' heq
    cases he : d.eof with
    | true =>
      rw [decPull, if_pos he] at heq
      injection heq with h1 h2
      injection h2 with h3
      exact absurd h3 (by decide)
    | false =>
      simp only [decPull, he, Bool.false_eq_true, if_false] at heq
      split at heq
      · injection heq with h1 h2
        injection h2 with h3
        exact absurd h3 (by decide)
      · split at heq
        · injection heq with h1 h2
          injection h2 with h3
          exact absurd h3 (by decide)
        · split at heq
          · injection heq with h1 h2
            subst h1
            rfl
          · injection heq with h1 h2
            exact Option.noConfusion h2

/-- Witness for the amended C4 on a concrete latched decryptor state. -/
theorem claim4_amended_no_terminal_error_witness :
    (true = true → decPull (mkAEAD [3]) (Decryptor.mk 2 [1, 2, 3] [] 5 true) []
      = (Decryptor.mk 2 [1, 2, 3] [] 5 true, some .endOfStream)) ∧
    (true = true → ([] : List Nat) = [] →
      decRead (mkAEAD [3]) (Decryptor.mk 2 [1, 2, 3] [] 5 true) 4
        = (Decryptor.mk 2 [1, 2, 3] [] 5 true, [], some .endOfStream)) ∧
    (∀ (d' : Decryptor) (err : SealError),
      decPull (mkAEAD [3]) (Decryptor.mk 2 [1, 2, 3] [] 5 true) [] = (d', some err) →
      err ≠ .endOfStream →
      d'.eof = false ∧ d'.buf = [] ∧
      d'.input = List.drop (chunkHeaderSize + 2 + overhead) [1, 2, 3]) ∧
    (∀ d' : Decryptor,
      decPull (mkAEAD [3]) (Decryptor.mk 2 [1, 2, 3] [] 5 true) [] = (d', some .authFailed) →
      d'.chunkIndex = 5 + 1) :=
  claim4_amended_no_terminal_error (mkAEAD [3]) (Decryptor.mk 2 [1, 2, 3] [] 5 true) [] 4

end Sealer
